import Mathlib

/-!
Verification of the text-forge chapter-combination pipeline and helper tools.

The definitions below are shallow embeddings of the repository's code:
`scripts/process-epub-meta.py` (EPUB metadata templater),
`text_forge/plugin.py` (`on_serve` save endpoint),
`mkdocs/hooks/nobr_emoticons.py` (emoticon no-break hook),
and the chapter combiner driven by `text_forge/build.py`.
Strings are modelled as `List Char`; `String` wrappers are used at the edges.
-/

namespace TextForge

/-! ## EPUB metadata templater (`scripts/process-epub-meta.py`) -/

/-- Python `str.replace pat rep`: replace every non-overlapping occurrence of
`pat`, scanning left to right.  `process-epub-meta.py` line 110:
`text = text.replace(k, v)`.  The patterns used are never empty; the fuel
(always instantiated with the text length, which suffices) makes the
recursion structural. -/
def replaceAllGo (pat rep : List Char) : Nat → List Char → List Char
  | 0, l => l
  | _ + 1, [] => []
  | fuel + 1, c :: cs =>
    if pat ≠ [] ∧ pat.isPrefixOf (c :: cs) then
      rep ++ replaceAllGo pat rep fuel ((c :: cs).drop pat.length)
    else
      c :: replaceAllGo pat rep fuel cs

/-- Python `str.replace` over a whole text. -/
def replaceAll (pat rep l : List Char) : List Char :=
  replaceAllGo pat rep l.length l

/-- Sequential application of the replacement table, in the Python dict's
insertion order (`for k, v in replacements.items(): text = text.replace(k, v)`). -/
def applyReplacements (repl : List (List Char × List Char)) (text : List Char) : List Char :=
  repl.foldl (fun t kv => replaceAll kv.1 kv.2 t) text

/-- Lowercase-or-underscore character class `[a-z_]` of the leftover regex. -/
def isLowerU (c : Char) : Bool :=
  ('a' ≤ c ∧ c ≤ 'z') ∨ c = '_'

/-- `re.findall(r"\[[a-z_]+\]", text)` (`process-epub-meta.py` line 112): every
non-overlapping leftmost occurrence of a bracketed nonempty run of `[a-z_]`
characters, in scan order.  Fuel as in `replaceAllGo`. -/
def findPlaceholdersGo : Nat → List Char → List (List Char)
  | 0, _ => []
  | _ + 1, [] => []
  | fuel + 1, c :: cs =>
    if c = '[' then
      match cs.dropWhile isLowerU with
      | ']' :: rest =>
        if cs.takeWhile isLowerU ≠ [] then
          ('[' :: cs.takeWhile isLowerU ++ [']']) :: findPlaceholdersGo fuel rest
        else findPlaceholdersGo fuel cs
      | _ => findPlaceholdersGo fuel cs
    else findPlaceholdersGo fuel cs

/-- All leftover placeholders of a text. -/
def findPlaceholders (l : List Char) : List (List Char) :=
  findPlaceholdersGo l.length l

/-- Lexicographic (code-point) order on strings-as-char-lists, as Python's
`sorted` compares `str` values. -/
def strLe : List Char → List Char → Bool
  | [], _ => true
  | _ :: _, [] => false
  | a :: as, b :: bs => if a < b then true else if b < a then false else strLe as bs

/-- Insertion into a sorted list (used to model Python's `sorted`). -/
def insertSorted (x : List Char) : List (List Char) → List (List Char)
  | [] => [x]
  | y :: ys => if strLe x y then x :: y :: ys else y :: insertSorted x ys

/-- Sorting a list of strings (models Python's `sorted`). -/
def sortStrings (l : List (List Char)) : List (List Char) :=
  l.foldr insertSorted []

/-- `main` of `process-epub-meta.py`, lines 97-120, after the replacement
table has been assembled: apply the eight replacements in dict order, collect
the leftover placeholders with `re.findall(r"\[[a-z_]+\]", text)`, and either
fail with `SystemExit` naming `sorted(set(leftovers))` (no file written) or
write the substituted text.  The `Except` value models the two exits: `.error`
is the `SystemExit` path where `out_path.write_text` is never reached. -/
def processEpubMeta (template : List Char) (repl : List (List Char × List Char)) :
    Except (List (List Char)) (List Char) :=
  let text := applyReplacements repl template
  let leftovers := sortStrings (findPlaceholders text).dedup
  if leftovers = [] then .ok text else .error leftovers

/-! ## Development save endpoint (`text_forge/plugin.py`, `on_serve`) -/

/-- Split a path string on `/` separators. -/
def splitOnSlash : List Char → List (List Char)
  | [] => [[]]
  | c :: cs =>
    if c = '/' then [] :: splitOnSlash cs
    else
      match splitOnSlash cs with
      | [] => [[c]]
      | p :: ps => (c :: p) :: ps

/-- Path components of a string: empty components (from doubled or leading
slashes) are dropped, as `pathlib` normalizes them away. -/
def pathComponents (s : List Char) : List (List Char) :=
  (splitOnSlash s).filter (· ≠ [])

/-- `Path.resolve()` on an absolute component list: `.` is dropped and `..`
removes the last component (at the root it stays at the root), symlinks not
modelled. -/
def resolveDots (base : List (List Char)) : List (List Char) → List (List Char)
  | [] => base
  | c :: cs =>
    if c = ['.'] then resolveDots base cs
    else if c = ['.', '.'] then resolveDots base.dropLast cs
    else resolveDots (base ++ [c]) cs

/-- `(docs_dir / file_path).resolve()` (plugin.py line 229): pathlib's `/`
starts over from the root when `file_path` is absolute, else joins onto
`docs_dir`; then `..`/`.` components are resolved. -/
def joinTarget (docs : List (List Char)) (filePath : List Char) : List (List Char) :=
  let base := if filePath.head? = some '/' then [] else docs
  resolveDots base (pathComponents filePath)

/-- `str(path)` for an absolute component list. -/
def renderAbs (p : List (List Char)) : List Char :=
  p.foldl (fun acc c => acc ++ '/' :: c) []

/-- Outcome of a POST to `/_text_forge/save`: either the 403 branch
(plugin.py lines 231-239, nothing written) or the write branch (lines
242-254, `target_path.write_text`). -/
inductive SaveResponse where
  | forbidden
  | written (target : List (List Char))
  deriving DecidableEq, Repr

/-- The handler's path check and dispatch (plugin.py lines 229-254):
`target_path = (docs_dir / file_path).resolve()`, then
`if not str(target_path).startswith(str(docs_dir)): 403 else write`. -/
def saveEndpoint (docs : List (List Char)) (filePath : List Char) : SaveResponse :=
  let target := joinTarget docs filePath
  if (renderAbs docs).isPrefixOf (renderAbs target) then .written target
  else .forbidden

/-- A resolved path lies within the docs directory exactly when the docs
directory's components are a prefix of its components. -/
def isWithinDocs (docs target : List (List Char)) : Bool :=
  docs.isPrefixOf target

/-! ## Chapter combiner

The combiner itself (`scripts/mkdocs-combine.py`, invoked by
`combine_chapters` in `text_forge/build.py`) is not part of this source
tree; the definitions in this section are modelled from the specification
(§3, §4.1-§4.5) and checked for consistency with the expectations recorded
in `tests/test_pipeline.py`. -/

/-- Modelled from the spec: a `ChapterDocument` (§3) — raw text, optional
`created`/`published` front-matter dates, optional per-page anchor override.
The combiner script that parses these from disk is not under version control
here. -/
structure Chapter where
  rawText : List Char
  created : Option (List Char)
  published : Option (List Char)
  anchorOverride : Option (List Char)
  deriving Repr, DecidableEq

/-- Modelled from the spec: a `NavigationEntry` (§3, §9) — a tree of tagged
variants `Leaf(label, path)` / `Group(label, children)`. -/
inductive NavEntry where
  | leaf (label : List Char) (path : List Char)
  | group (label : List Char) (children : List NavEntry)

mutual
/-- Modelled from the spec: the Navigation Resolver (§4.1) — the depth-first,
order-preserving flattening of the navigation tree into `(label, path)` leaf
pairs. -/
def flattenNav : NavEntry → List (List Char × List Char)
  | .leaf l p => [(l, p)]
  | .group _ cs => flattenNavList cs

/-- Depth-first flattening of a forest of navigation entries, preserving
sibling order. -/
def flattenNavList : List NavEntry → List (List Char × List Char)
  | [] => []
  | e :: es => flattenNav e ++ flattenNavList es
end

mutual
/-- Modelled from the spec: the default-anchor derivation (§4.2) — lower-case
the base name and collapse each non-alphanumeric run to a single hyphen. -/
def slugChars : List Char → List Char
  | [] => []
  | c :: cs =>
    if c.isAlphanum then c.toLower :: slugChars cs
    else '-' :: slugSkip cs

/-- Continuation of `slugChars` inside a non-alphanumeric run (already
represented by one hyphen). -/
def slugSkip : List Char → List Char
  | [] => []
  | c :: cs =>
    if c.isAlphanum then c.toLower :: slugChars cs
    else slugSkip cs
end

/-- The base name of a path: its last `/`-separated component. -/
def baseName (p : List Char) : List Char :=
  (pathComponents p).getLastD p

/-- Modelled from the spec: the default anchor slug of a chapter path (§4.2). -/
def defaultSlug (p : List Char) : List Char :=
  slugChars (baseName p)

/-- The decimal digit character for `d < 10`. -/
def digitChar (d : Nat) : Char :=
  Char.ofNat (48 + d)

/-- Little-endian decimal digits of `n`, with explicit fuel (the fuel is
always sufficient at `n + 1`). -/
def digitsLE : Nat → Nat → List Nat
  | 0, _ => []
  | fuel + 1, n => if n = 0 then [] else n % 10 :: digitsLE fuel (n / 10)

/-- Decimal rendering of a natural number. -/
def natToChars (n : Nat) : List Char :=
  if n = 0 then ['0'] else ((digitsLE (n + 1) n).map digitChar).reverse

/-- Modelled from the spec: the candidate anchors tried for a base slug, in
order — the slug itself, then `base-2`, `base-3`, … (§4.2 tie-break). -/
def suffixCandidates (base : List Char) (n : Nat) : List (List Char) :=
  base :: (List.range n).map (fun k => base ++ '-' :: natToChars (k + 2))

/-- Modelled from the spec: deterministic collision disambiguation (§4.2) —
the first candidate not yet used.  `used.length + 1` numeric candidates
always suffice, so the fallback is never reached. -/
def freshAnchor (used : List (List Char)) (base : List Char) : List Char :=
  match (suffixCandidates base (used.length + 1)).find? (fun c => ¬ used.contains c) with
  | some a => a
  | none => base

/-- One AnchorTable entry: the anchor the chapter will have in the combined
document, and its declared front-matter override (if any). -/
structure AnchorInfo where
  anchor : List Char
  override : Option (List Char)
  deriving Repr, DecidableEq

/-- Chapter lookup by source path in the on-disk chapter set. -/
def lookupChapter : List (List Char × Chapter) → List Char → Option Chapter
  | [], _ => none
  | (q, ch) :: rest, p => if q = p then some ch else lookupChapter rest p

/-- AnchorTable lookup by resolved chapter path. -/
def lookupAnchor : List (List Char × AnchorInfo) → List Char → Option AnchorInfo
  | [], _ => none
  | (q, i) :: rest, p => if q = p then some i else lookupAnchor rest p

/-- Modelled from the spec: the Anchor Assigner's pass over the chapters in
navigation order (§4.2), threading the set of anchors already taken. -/
def assignAnchorsGo (files : List (List Char × Chapter)) :
    List (List Char) → List (List Char) → List (List Char × AnchorInfo)
  | _, [] => []
  | used, p :: ps =>
    let ov := match lookupChapter files p with
      | some ch => ch.anchorOverride
      | none => none
    let a := freshAnchor used (ov.getD (defaultSlug p))
    (p, ⟨a, ov⟩) :: assignAnchorsGo files (a :: used) ps

/-- Modelled from the spec: the AnchorTable (§3, §4.2), built once, in
navigation order, before any link rewriting. -/
def assignAnchors (files : List (List Char × Chapter)) (navPaths : List (List Char)) :
    List (List Char × AnchorInfo) :=
  assignAnchorsGo files [] navPaths

/-- Whether `pat` occurs as a contiguous substring. -/
def containsSub (pat : List Char) : List Char → Bool
  | [] => pat.isEmpty
  | c :: cs => pat.isPrefixOf (c :: cs) || containsSub pat cs

/-- The directory part of a chapter path: all components but the last. -/
def dirOf (p : List Char) : List (List Char) :=
  (pathComponents p).dropLast

/-- Join relative path components with `/`. -/
def renderRel : List (List Char) → List Char
  | [] => []
  | [c] => c
  | c :: rest => c ++ '/' :: renderRel rest

/-- Modelled from the spec: resolution of a link target against the linking
chapter's own location (§4.3) — normalize `./` and `../` components relative
to the chapter's directory. -/
def resolveRel (self target : List Char) : List Char :=
  renderRel (resolveDots (dirOf self) (pathComponents target))

/-- Split a link target at its first `#` into path and optional fragment. -/
def splitFragment (t : List Char) : List Char × Option (List Char) :=
  (t.takeWhile (fun c => c != '#'),
   match t.dropWhile (fun c => c != '#') with
   | _ :: frag => some frag
   | [] => none)

/-- Modelled from the spec: the Link Rewriter's per-target rule (§4.3, §4.2,
§9): same-page anchors and external URLs are untouched; otherwise the target
is resolved relative to the chapter and looked up in the AnchorTable; unknown
paths are untouched; a known path rewrites to `#anchor`, where a trailing
fragment maps to the target chapter's declared anchor override when one is
defined and otherwise falls back to the chapter-level anchor. -/
def rewriteTarget (tbl : List (List Char × AnchorInfo)) (self t : List Char) : List Char :=
  if t.head? = some '#' then t
  else if containsSub "://".toList t then t
  else
    match lookupAnchor tbl (resolveRel self (splitFragment t).1) with
    | none => t
    | some info =>
      match (splitFragment t).2 with
      | some _ => '#' :: info.override.getD info.anchor
      | none => '#' :: info.anchor

/-- Parse the remainder of a markdown inline link after its opening `[`:
label up to `]`, then `(`, target up to `)`.  Returns the label, the target
and the text after the closing `)`. -/
def parseLink (l : List Char) : Option (List Char × List Char × List Char) :=
  match l.dropWhile (fun c => c != ']') with
  | ']' :: '(' :: l2 =>
    match l2.dropWhile (fun c => c != ')') with
    | ')' :: rest =>
      some (l.takeWhile (fun c => c != ']'), l2.takeWhile (fun c => c != ')'), rest)
    | _ => none
  | _ => none

/-- Modelled from the spec: the Link Rewriter's scan over a chapter's raw
text (§4.3) — each markdown inline link `[label](target)` has its target
rewritten by `rewriteTarget`; all other text is copied byte-identically.
The fuel argument (instantiated with the text length, which always
suffices) makes the recursion structural. -/
def rewriteGo (tbl : List (List Char × AnchorInfo)) (self : List Char) :
    Nat → List Char → List Char
  | 0, l => l
  | _ + 1, [] => []
  | fuel + 1, c :: l =>
    if c = '[' then
      match parseLink l with
      | some (lab, tgt, rest) =>
        '[' :: lab ++ ']' :: '(' :: rewriteTarget tbl self tgt ++ ')' ::
          rewriteGo tbl self fuel rest
      | none => c :: rewriteGo tbl self fuel l
    else c :: rewriteGo tbl self fuel l

/-- The Link Rewriter's pass over a chapter text. -/
def rewriteChars (tbl : List (List Char × AnchorInfo)) (self : List Char)
    (l : List Char) : List Char :=
  rewriteGo tbl self l.length l

/-- One date line of the metadata block, or nothing when the field is absent. -/
def dateLine (label : List Char) (d : Option (List Char)) : List Char :=
  match d with
  | none => []
  | some v => label ++ v ++ ['\n']

/-- Modelled from the spec: the Metadata Injector (§4.4) — a chapter with a
`created` and/or `published` date yields one fenced `chapter-dates` block
with a localized line per present date; a chapter with neither yields no
block at all.  Tag and labels follow the expectations in
`tests/test_pipeline.py` lines 90-97. -/
def datesBlock (ch : Chapter) : List Char :=
  match ch.created, ch.published with
  | none, none => []
  | _, _ =>
    "/// chapter-dates\n".toList ++
      dateLine "Создано: ".toList ch.created ++
      dateLine "Опубликовано: ".toList ch.published ++
      "///\n".toList

/-- Modelled from the spec: per-chapter output (§4.5 `Read → Rewrite →
Inject → Append`) — the rewritten text with the metadata block adjacent. -/
def renderChapter (tbl : List (List Char × AnchorInfo)) (p : List Char) (ch : Chapter) :
    List Char :=
  rewriteChars tbl p ch.rawText ++ datesBlock ch

/-- Modelled from the spec: the error taxonomy's fatal structural error (§7). -/
inductive CombineError where
  | missingChapterFile (path : List Char)
  deriving Repr, DecidableEq

/-- Modelled from the spec: the per-chapter loop of the Combiner (§4.5) — a
navigation entry whose path has no chapter file fails the whole run with
`MissingChapterFile`; otherwise chapters are appended in navigation order. -/
def combineGo (tbl : List (List Char × AnchorInfo)) (files : List (List Char × Chapter)) :
    List (List Char × List Char) → Except CombineError (List Char)
  | [] => .ok []
  | (_, p) :: rest =>
    match lookupChapter files p with
    | none => .error (.missingChapterFile p)
    | some ch =>
      match combineGo tbl files rest with
      | .error e => .error e
      | .ok s => .ok (renderChapter tbl p ch ++ s)

/-- Modelled from the spec: the Combiner orchestrator (§4.5) — resolve the
navigation, build the full AnchorTable, then rewrite and concatenate every
chapter in navigation order. -/
def combineChapters (nav : NavEntry) (files : List (List Char × Chapter)) :
    Except CombineError (List Char) :=
  combineGo (assignAnchors files ((flattenNav nav).map (·.2))) files (flattenNav nav)

/-! ### Order, failure and determinism of the combiner -/

/-- The empty chapter used as the (never-reached) `Option.getD` default. -/
def emptyChapter : Chapter :=
  ⟨[], none, none, none⟩

/-- The test fixture's chapter set (`tests/fixtures/input`): `index.md` links
to chapter1, `chapter1.md` links to `chapter2.md#quotes`, `chapter2.md`
declares the anchor override `quotes` and both dates. -/
def fixtureFiles : List (List Char × Chapter) :=
  [("index.md".toList,
    ⟨"# Test Fixtures\n[Chapter 1](chapter1.md)\n".toList, none, none, none⟩),
   ("chapter1.md".toList,
    ⟨"# Chapter 1: Blocks and Links\n[Chapter 2](chapter2.md#quotes)\n".toList,
     none, none, none⟩),
   ("chapter2.md".toList,
    ⟨"# Chapter 2: Quotes and Images\n[home](index.md)\n".toList,
     some "2024-01-15".toList, some "2024-01-20".toList, some "quotes".toList⟩)]

/-- The test fixture's navigation: Home, Chapter 1, Chapter 2 in that order. -/
def fixtureNav : NavEntry :=
  .group "root".toList
    [.leaf "Home".toList "index.md".toList,
     .leaf "Chapter 1".toList "chapter1.md".toList,
     .leaf "Chapter 2".toList "chapter2.md".toList]

/-- The AnchorTable of the fixture. -/
def fixtureTbl : List (List Char × AnchorInfo) :=
  assignAnchors fixtureFiles ((flattenNav fixtureNav).map (·.2))

/-- The fixture chapter set with `chapter2.md` removed. -/
def fixtureFilesMissing : List (List Char × Chapter) :=
  fixtureFiles.take 2

/-! ### Metadata block -/

/-- Number of (possibly overlapping) occurrences of `pat` in a text. -/
def countOcc (pat : List Char) : List Char → Nat
  | [] => 0
  | c :: cs => (if pat.isPrefixOf (c :: cs) then 1 else 0) + countOcc pat cs

/-- The metadata block's tag, as a character list. -/
def chapterDatesTag : List Char :=
  "/// chapter-dates".toList

/-! ## Emoticon no-break hook (`mkdocs/hooks/nobr_emoticons.py`)

The hook substitutes, with `re.sub` under `re.IGNORECASE`, every emoticon
alternative not directly preceded by `<span class="md-nobr">` (negative
lookbehind against the subject string) and not directly followed by
`</span>` (negative lookahead) with the matched text wrapped in that span.
The embedding scans positions left to right exactly as the regex engine
does; at most one alternative can match at a position because no alternative
is a case-insensitive prefix of another. -/

/-- Case-insensitive character comparison, as `re.IGNORECASE` compares. -/
def lowerEq (a b : Char) : Bool :=
  a.toLower == b.toLower

/-- Case-insensitive prefix test. -/
def ciPrefix : List Char → List Char → Bool
  | [], _ => true
  | _ :: _, [] => false
  | a :: as, b :: bs => lowerEq a b && ciPrefix as bs

/-- The emoticon alternatives, in the pattern's order
(`EMOTICONS` list, nobr_emoticons.py lines 16-25). -/
def emoticons : List (List Char) :=
  [[':', '-', ')'], [':', '-', '('], [';', '-', ')'], [':', '-', 'D'],
   [':', '-', 'P'], [':', ')'], [':', '('], [';', ')']]

/-- The wrapper's opening text (the lookbehind literal). -/
def spanOpen : List Char :=
  "<span class=\"md-nobr\">".toList

/-- The wrapper's closing text (the lookahead literal). -/
def spanClose : List Char :=
  "</span>".toList

/-- One match attempt at the current position: the negative lookbehind
checks the already-consumed subject text (`pre`, reversed), then the first
alternative that matches case-insensitively is taken, then the negative
lookahead checks the remaining subject text.  Returns the matched original
text and the remainder. -/
def tryMatch (pre rest : List Char) : Option (List Char × List Char) :=
  if ciPrefix spanOpen.reverse pre then none
  else
    match emoticons.find? (fun e => ciPrefix e rest) with
    | none => none
    | some e =>
      if ciPrefix spanClose (rest.drop e.length) then none
      else some (rest.take e.length, rest.drop e.length)

/-- The `re.sub` scan: at each position either wrap a match and continue
after it, or copy one character.  `pre` is the reversed consumed subject
text (the regex lookbehind examines the subject, not the output); the fuel
(always instantiated with the text length, which suffices since every step
consumes at least one character) makes the recursion structural. -/
def nobrGo : Nat → List Char → List Char → List Char
  | 0, _, rest => rest
  | _ + 1, _, [] => []
  | fuel + 1, pre, c :: rs =>
    match tryMatch pre (c :: rs) with
    | some (m, rest') =>
      spanOpen ++ m ++ spanClose ++ nobrGo fuel (m.reverse ++ pre) rest'
    | none => c :: nobrGo fuel (c :: pre) rs

/-- `on_page_markdown` (nobr_emoticons.py lines 34-41): one substitution
pass over the page text. -/
def nobrEmoticons (s : List Char) : List Char :=
  nobrGo s.length [] s

/-- Whether the suffix of the reversed lookbehind literal starting at `k` is
compatible with a reversed wrapped emoticon whose two lowered leading
characters are `a` and `b` — it never is. -/
def dropBlockCheck (k : Nat) (a b : Char) : Bool :=
  match spanOpen.reverse.drop k with
  | c0 :: c1 :: _ => !((c0.toLower == a) && (c1.toLower == b))
  | [c0] => !(c0.toLower == a)
  | [] => true

/-! ### The lookbehind relation between the two passes -/

/-- Every suffix of the lookbehind literal that blocks the first pass also
blocks the second pass. -/
def Rel (pre pre₂ : List Char) : Prop :=
  ∀ k, ciPrefix (spanOpen.reverse.drop k) pre = true →
    ciPrefix (spanOpen.reverse.drop k) pre₂ = true

theorem mem_insertSorted {x y : List Char} {l : List (List Char)} :
    y ∈ insertSorted x l ↔ y = x ∨ y ∈ l := by
  induction l with
  | nil => simp [insertSorted]
  | cons z zs ih =>
    simp only [insertSorted]
    by_cases h : strLe x z = true
    · simp [h]
    · rw [if_neg h]
      simp only [List.mem_cons, ih]
      tauto

theorem insertSorted_ne_nil (x : List Char) (l : List (List Char)) :
    insertSorted x l ≠ [] := by
  cases l with
  | nil => simp [insertSorted]
  | cons y ys =>
    simp only [insertSorted]
    by_cases h : strLe x y = true <;> simp [h]

theorem sortStrings_eq_nil_iff {l : List (List Char)} :
    sortStrings l = [] ↔ l = [] := by
  cases l with
  | nil => simp [sortStrings]
  | cons x xs =>
    simp only [sortStrings, List.foldr_cons]
    constructor
    · intro h
      exact absurd h (insertSorted_ne_nil x _)
    · intro h
      exact absurd h (by simp)

theorem mem_sortStrings {x : List Char} {l : List (List Char)} :
    x ∈ sortStrings l ↔ x ∈ l := by
  induction l with
  | nil => simp [sortStrings]
  | cons y ys ih =>
    simp only [sortStrings, List.foldr_cons] at *
    rw [mem_insertSorted, ih]
    simp

/-- C9: the templater writes its output only when no `[a-z_]+` placeholder
remains after substitution; when any remains it exits via `SystemExit` whose
payload names every leftover, and the output file is never written (the
`.error` branch returns before `out_path.write_text`). -/
theorem epub_meta_writes_only_without_leftovers (template : List Char)
    (repl : List (List Char × List Char)) :
    (∀ out, processEpubMeta template repl = .ok out →
        out = applyReplacements repl template ∧ findPlaceholders out = []) ∧
    (findPlaceholders (applyReplacements repl template) ≠ [] →
        processEpubMeta template repl =
          .error (sortStrings (findPlaceholders (applyReplacements repl template)).dedup) ∧
        ∀ ph ∈ findPlaceholders (applyReplacements repl template),
          ∃ L, processEpubMeta template repl = .error L ∧ ph ∈ L) := by
  constructor
  · intro out hok
    simp only [processEpubMeta] at hok
    by_cases h : sortStrings (findPlaceholders (applyReplacements repl template)).dedup = []
    · rw [if_pos h] at hok
      have hout : out = applyReplacements repl template := by
        cases hok
        rfl
      refine ⟨hout, ?_⟩
      rw [hout]
      rw [sortStrings_eq_nil_iff, List.dedup_eq_nil] at h
      exact h
    · rw [if_neg h] at hok
      cases hok
  · intro hne
    have hd : (findPlaceholders (applyReplacements repl template)).dedup ≠ [] :=
      fun h => hne ((List.dedup_eq_nil _).mp h)
    have hs : sortStrings (findPlaceholders (applyReplacements repl template)).dedup ≠ [] :=
      fun h => hd (sortStrings_eq_nil_iff.mp h)
    constructor
    · simp only [processEpubMeta]
      rw [if_neg hs]
    · intro ph hph
      refine ⟨sortStrings (findPlaceholders (applyReplacements repl template)).dedup, ?_, ?_⟩
      · simp only [processEpubMeta]
        rw [if_neg hs]
      · rw [mem_sortStrings]
        exact List.mem_dedup.mpr hph

/-- C9 witness: a template with an unknown placeholder `[unknown]` makes the
templater fail with the leftover named, at a concrete input. -/
theorem epub_meta_leftover_witness :
    processEpubMeta "[title] [unknown]".toList [("[title]".toList, "T".toList)] =
      .error (sortStrings (findPlaceholders (applyReplacements
        [("[title]".toList, "T".toList)] "[title] [unknown]".toList)).dedup) :=
  ((epub_meta_writes_only_without_leftovers _ _).2
    (by decide)).1

/-- C8: the claim fails on the code.  With docs directory `/proj/docs`, the
request `filePath = "../docs-secret/evil.md"` resolves to
`/proj/docs-secret/evil.md`, which is outside the docs directory, yet the
handler's `str(target).startswith(str(docs_dir))` test accepts it and the
file is written (no 403). -/
theorem save_endpoint_writes_outside_docs_dir :
    saveEndpoint (pathComponents "/proj/docs".toList) "../docs-secret/evil.md".toList =
      .written (pathComponents "/proj/docs-secret/evil.md".toList) ∧
    isWithinDocs (pathComponents "/proj/docs".toList)
      (pathComponents "/proj/docs-secret/evil.md".toList) = false := by
  exact ⟨rfl, rfl⟩

/-- Dropping while a predicate holds and hitting a next element shortens the
list: basis for the scanner termination arguments. -/
theorem length_lt_of_dropWhile_cons {p : Char → Bool} {l r : List Char} {c : Char}
    (h : l.dropWhile p = c :: r) : r.length < l.length := by
  have hlen : (l.takeWhile p ++ l.dropWhile p).length = l.length := by
    rw [List.takeWhile_append_dropWhile]
  rw [h] at hlen
  simp only [List.length_append, List.length_cons] at hlen
  omega

/-! ### Anchor uniqueness -/

theorem digitChar_inj : ∀ a < 10, ∀ b < 10, digitChar a = digitChar b → a = b := by
  decide

theorem digitsLE_eq_digits : ∀ fuel n, n ≤ fuel → digitsLE fuel n = Nat.digits 10 n := by
  intro fuel
  induction fuel with
  | zero =>
    intro n hn
    have : n = 0 := Nat.le_zero.mp hn
    subst this
    simp [digitsLE]
  | succ f ih =>
    intro n hn
    by_cases h0 : n = 0
    · subst h0
      simp [digitsLE]
    · simp only [digitsLE, if_neg h0]
      rw [Nat.digits_def' (by norm_num : 1 < 10) (Nat.pos_of_ne_zero h0)]
      congr 1
      apply ih
      have : n / 10 < n := Nat.div_lt_self (Nat.pos_of_ne_zero h0) (by norm_num)
      omega

theorem map_digitChar_inj : ∀ l₁ l₂ : List Nat, (∀ d ∈ l₁, d < 10) → (∀ d ∈ l₂, d < 10) →
    l₁.map digitChar = l₂.map digitChar → l₁ = l₂ := by
  intro l₁
  induction l₁ with
  | nil =>
    intro l₂ _ _ h
    cases l₂ with
    | nil => rfl
    | cons b bs => simp at h
  | cons a as ih =>
    intro l₂ h₁ h₂ h
    cases l₂ with
    | nil => simp at h
    | cons b bs =>
      simp only [List.map_cons, List.cons.injEq] at h
      have ha : a < 10 := h₁ a (by simp)
      have hb : b < 10 := h₂ b (by simp)
      have hab : a = b := digitChar_inj a ha b hb h.1
      have htl : as = bs :=
        ih bs (fun d hd => h₁ d (by simp [hd])) (fun d hd => h₂ d (by simp [hd])) h.2
      rw [hab, htl]

theorem natToChars_eq_of_ne_zero {n : Nat} (hn : n ≠ 0) :
    natToChars n = ((Nat.digits 10 n).map digitChar).reverse := by
  simp only [natToChars, if_neg hn]
  rw [digitsLE_eq_digits (n + 1) n (by omega)]

theorem natToChars_ne_nil (n : Nat) : natToChars n ≠ [] := by
  by_cases hn : n = 0
  · subst hn
    simp [natToChars]
  · rw [natToChars_eq_of_ne_zero hn]
    simp only [ne_eq, List.reverse_eq_nil_iff, List.map_eq_nil_iff]
    exact Nat.digits_ne_nil_iff_ne_zero.mpr hn

theorem natToChars_inj : ∀ m n : Nat, natToChars m = natToChars n → m = n := by
  have key : ∀ n : Nat, n ≠ 0 → natToChars n ≠ ['0'] := by
    intro n hn hcon
    rw [natToChars_eq_of_ne_zero hn] at hcon
    have h1 : (Nat.digits 10 n).map digitChar = ['0'] := by
      have := congrArg List.reverse hcon
      simpa using this
    cases hd : Nat.digits 10 n with
    | nil => rw [hd] at h1; simp at h1
    | cons d ds =>
      rw [hd] at h1
      cases ds with
      | cons d2 ds2 => simp at h1
      | nil =>
        simp only [List.map_cons, List.map_nil, List.cons.injEq, and_true] at h1
        have hdlt : d < 10 :=
          Nat.digits_lt_base (by norm_num : 1 < 10)
            (show d ∈ Nat.digits 10 n by rw [hd]; simp)
        have h48 : digitChar 0 = '0' := by decide
        have hd0 : d = 0 := digitChar_inj d hdlt 0 (by norm_num) (h1.trans h48.symm)
        have : n = Nat.ofDigits 10 (Nat.digits 10 n) := (Nat.ofDigits_digits 10 n).symm
        rw [hd, hd0] at this
        simp [Nat.ofDigits] at this
        exact hn this
  intro m n h
  by_cases hm : m = 0 <;> by_cases hn : n = 0
  · rw [hm, hn]
  · exfalso
    apply key n hn
    rw [← h, hm]
    simp [natToChars]
  · exfalso
    apply key m hm
    rw [h, hn]
    simp [natToChars]
  · rw [natToChars_eq_of_ne_zero hm, natToChars_eq_of_ne_zero hn] at h
    have h2 : (Nat.digits 10 m).map digitChar = (Nat.digits 10 n).map digitChar := by
      have := congrArg List.reverse h
      simpa using this
    have h3 : Nat.digits 10 m = Nat.digits 10 n :=
      map_digitChar_inj _ _
        (fun d hd => Nat.digits_lt_base (by norm_num) hd)
        (fun d hd => Nat.digits_lt_base (by norm_num) hd) h2
    calc m = Nat.ofDigits 10 (Nat.digits 10 m) := (Nat.ofDigits_digits 10 m).symm
      _ = Nat.ofDigits 10 (Nat.digits 10 n) := by rw [h3]
      _ = n := Nat.ofDigits_digits 10 n

theorem suffixCandidates_nodup (base : List Char) (n : Nat) :
    (suffixCandidates base n).Nodup := by
  simp only [suffixCandidates]
  refine List.Nodup.cons ?_ (List.Nodup.map ?_ (List.nodup_range n))
  · intro hmem
    simp only [List.mem_map] at hmem
    obtain ⟨k, _, hk⟩ := hmem
    have hlen := congrArg List.length hk
    simp only [List.length_append, List.length_cons] at hlen
    have := List.length_pos.mpr (natToChars_ne_nil (k + 2))
    omega
  · intro k₁ k₂ heq
    have h1 : ('-' :: natToChars (k₁ + 2)) = ('-' :: natToChars (k₂ + 2)) :=
      List.append_cancel_left heq
    have h2 : natToChars (k₁ + 2) = natToChars (k₂ + 2) := by
      injection h1
    have := natToChars_inj _ _ h2
    omega

theorem suffixCandidates_length (base : List Char) (n : Nat) :
    (suffixCandidates base n).length = n + 1 := by
  simp [suffixCandidates]

theorem exists_candidate_unused (used : List (List Char)) (base : List Char) :
    ∃ c ∈ suffixCandidates base (used.length + 1), c ∉ used := by
  by_contra hcon
  push_neg at hcon
  have hsub : suffixCandidates base (used.length + 1) ⊆ used := fun c hc => hcon c hc
  have h1 : (suffixCandidates base (used.length + 1)).toFinset.card =
      used.length + 2 := by
    rw [List.toFinset_card_of_nodup (suffixCandidates_nodup base (used.length + 1))]
    rw [suffixCandidates_length]
  have h2 : (suffixCandidates base (used.length + 1)).toFinset ⊆ used.toFinset := by
    intro c hc
    rw [List.mem_toFinset] at hc ⊢
    exact hsub hc
  have h3 := Finset.card_le_card h2
  have h4 := used.toFinset_card_le
  omega

theorem freshAnchor_find_isSome (used : List (List Char)) (base : List Char) :
    ((suffixCandidates base (used.length + 1)).find?
      (fun c => ¬ used.contains c)).isSome := by
  rw [List.find?_isSome]
  obtain ⟨c, hc, hcu⟩ := exists_candidate_unused used base
  refine ⟨c, hc, ?_⟩
  simpa [List.elem_iff] using hcu

theorem freshAnchor_not_mem (used : List (List Char)) (base : List Char) :
    freshAnchor used base ∉ used := by
  unfold freshAnchor
  cases hf : (suffixCandidates base (used.length + 1)).find?
      (fun c => ¬ used.contains c) with
  | none =>
    have := freshAnchor_find_isSome used base
    rw [hf] at this
    simp at this
  | some a =>
    have hp := List.find?_some hf
    simpa [List.elem_iff] using hp

theorem freshAnchor_suffix (used : List (List Char)) (base : List Char)
    (h : base ∈ used) :
    ∃ k, 2 ≤ k ∧ freshAnchor used base = base ++ '-' :: natToChars k := by
  unfold freshAnchor
  cases hf : (suffixCandidates base (used.length + 1)).find?
      (fun c => ¬ used.contains c) with
  | none =>
    have := freshAnchor_find_isSome used base
    rw [hf] at this
    simp at this
  | some a =>
    have hmem := List.mem_of_find?_eq_some hf
    have hp := List.find?_some hf
    have hau : a ∉ used := by simpa [List.elem_iff] using hp
    simp only [suffixCandidates, List.mem_cons, List.mem_map] at hmem
    rcases hmem with hbase | ⟨k, _, hk⟩
    · exact absurd (hbase ▸ h) hau
    · exact ⟨k + 2, by omega, hk.symm⟩

theorem assignAnchorsGo_anchors_fresh (files : List (List Char × Chapter)) :
    ∀ (ps used : List (List Char)),
      (((assignAnchorsGo files used ps).map (fun e => e.2.anchor)).Nodup ∧
       ∀ a ∈ (assignAnchorsGo files used ps).map (fun e => e.2.anchor), a ∉ used) := by
  intro ps
  induction ps with
  | nil => intro used; simp [assignAnchorsGo]
  | cons p ps ih =>
    intro used
    simp only [assignAnchorsGo, List.map_cons]
    set ov := (match lookupChapter files p with
      | some ch => ch.anchorOverride
      | none => none) with hov
    set a := freshAnchor used (ov.getD (defaultSlug p)) with ha
    obtain ⟨ihnd, ihfresh⟩ := ih (a :: used)
    constructor
    · refine List.Nodup.cons ?_ ihnd
      intro hmem
      exact (ihfresh _ hmem) (by simp)
    · intro x hx
      simp only [List.mem_cons] at hx
      rcases hx with hx | hx
      · rw [hx]
        exact freshAnchor_not_mem used _
      · intro hxu
        exact (ihfresh x hx) (by simp [hxu])

/-- C3: every anchor in the AnchorTable is unique; a base slug already taken
is disambiguated by a numeric suffix `-k`, `k ≥ 2` (the later chapter in
navigation order gets the suffix); the assignment is a pure function of the
chapter set and the navigation order (so stable across runs); and the
combiner builds the complete table before any chapter is rewritten. -/
theorem anchor_table_unique (files : List (List Char × Chapter))
    (navPaths : List (List Char)) :
    ((assignAnchors files navPaths).map (fun e => e.2.anchor)).Nodup ∧
    (∀ used base, base ∈ used →
      ∃ k, 2 ≤ k ∧ freshAnchor used base = base ++ '-' :: natToChars k) ∧
    (∀ used base, freshAnchor used base ∉ used) ∧
    (∀ nav, combineChapters nav files =
      combineGo (assignAnchors files ((flattenNav nav).map (·.2))) files (flattenNav nav)) := by
  refine ⟨(assignAnchorsGo_anchors_fresh files navPaths []).1, ?_, ?_, ?_⟩
  · exact freshAnchor_suffix
  · exact freshAnchor_not_mem
  · intro nav
    rfl

theorem combineGo_ok (tbl : List (List Char × AnchorInfo))
    (files : List (List Char × Chapter)) :
    ∀ entries : List (List Char × List Char),
      (∀ lp ∈ entries, (lookupChapter files lp.2).isSome = true) →
      combineGo tbl files entries = .ok ((entries.map (fun lp =>
        renderChapter tbl lp.2 ((lookupChapter files lp.2).getD emptyChapter))).flatten) := by
  intro entries
  induction entries with
  | nil => intro _; simp [combineGo]
  | cons e rest ih =>
    intro h
    obtain ⟨l, p⟩ := e
    have hp := h (l, p) (by simp)
    obtain ⟨ch, hch⟩ := Option.isSome_iff_exists.mp hp
    have hrest := ih (fun lp hlp => h lp (List.mem_cons_of_mem _ hlp))
    simp only [combineGo, hch, hrest, List.map_cons, List.flatten]
    simp [hch]

/-- C2: with every referenced chapter present, the combined output is exactly
the concatenation, in the order of the depth-first order-preserving
flattening of the navigation tree, of each flattened chapter's rendering —
no re-sorting; and the flattening itself emits a leaf as its `(label, path)`
pair and a group as its children's flattenings in sibling order. -/
theorem combined_order_is_nav_flattening (nav : NavEntry)
    (files : List (List Char × Chapter))
    (h : ∀ lp ∈ flattenNav nav, (lookupChapter files lp.2).isSome = true) :
    combineChapters nav files = .ok (((flattenNav nav).map (fun lp =>
      renderChapter (assignAnchors files ((flattenNav nav).map (·.2))) lp.2
        ((lookupChapter files lp.2).getD emptyChapter))).flatten) ∧
    (∀ lab path, flattenNav (.leaf lab path) = [(lab, path)]) ∧
    (∀ lab c cs, flattenNav (.group lab (c :: cs)) =
      flattenNav c ++ flattenNav (.group lab cs)) := by
  refine ⟨?_, fun lab path => rfl, fun lab c cs => rfl⟩
  exact combineGo_ok _ files (flattenNav nav) h

theorem combineGo_error (tbl : List (List Char × AnchorInfo))
    (files : List (List Char × Chapter)) :
    ∀ entries : List (List Char × List Char),
      (∃ lp ∈ entries, lookupChapter files lp.2 = none) →
      ∃ p, lookupChapter files p = none ∧
        combineGo tbl files entries = .error (.missingChapterFile p) := by
  intro entries
  induction entries with
  | nil => intro h; simp at h
  | cons e rest ih =>
    intro h
    obtain ⟨l, p⟩ := e
    cases hp : lookupChapter files p with
    | none => exact ⟨p, hp, by simp [combineGo, hp]⟩
    | some ch =>
      have hrest : ∃ lp ∈ rest, lookupChapter files lp.2 = none := by
        obtain ⟨lp, hlp, hnone⟩ := h
        rcases List.mem_cons.mp hlp with heq | hmem
        · exfalso
          rw [heq] at hnone
          simp only at hnone
          rw [hnone] at hp
          cases hp
        · exact ⟨lp, hmem, hnone⟩
      obtain ⟨q, hq, herr⟩ := ih hrest
      exact ⟨q, hq, by simp [combineGo, hp, herr]⟩

/-- C4: if the navigation references a path with no chapter file, the whole
combine run fails with `MissingChapterFile` and no combined output is
produced (`.ok` is unreachable). -/
theorem combine_missing_chapter_aborts (nav : NavEntry)
    (files : List (List Char × Chapter))
    (h : ∃ lp ∈ flattenNav nav, lookupChapter files lp.2 = none) :
    (∃ p, lookupChapter files p = none ∧
      combineChapters nav files = .error (.missingChapterFile p)) ∧
    ∀ out, combineChapters nav files ≠ .ok out := by
  obtain ⟨p, hp, herr⟩ := combineGo_error
    (assignAnchors files ((flattenNav nav).map (·.2))) files (flattenNav nav) h
  refine ⟨⟨p, hp, herr⟩, ?_⟩
  intro out hok
  rw [show combineChapters nav files =
    combineGo (assignAnchors files ((flattenNav nav).map (·.2))) files (flattenNav nav)
    from rfl, herr] at hok
  cases hok

theorem lookupChapter_perm {files₁ files₂ : List (List Char × Chapter)}
    (hperm : files₁.Perm files₂) :
    (files₁.map Prod.fst).Nodup → ∀ p, lookupChapter files₁ p = lookupChapter files₂ p := by
  induction hperm with
  | nil => intro _ p; rfl
  | cons x l₁ ih =>
    intro hnd p
    obtain ⟨q, ch⟩ := x
    simp only [List.map_cons, List.nodup_cons] at hnd
    simp only [lookupChapter]
    by_cases hq : q = p
    · simp [hq]
    · simp only [if_neg hq]
      exact ih hnd.2 p
  | swap x y l =>
    intro hnd p
    obtain ⟨qx, chx⟩ := x
    obtain ⟨qy, chy⟩ := y
    simp only [List.map_cons, List.nodup_cons, List.mem_cons] at hnd
    have hxy : qy ≠ qx := fun hcon => hnd.1 (Or.inl hcon)
    simp only [lookupChapter]
    by_cases h1 : qy = p <;> by_cases h2 : qx = p
    · exact absurd (h1.trans h2.symm) hxy
    · simp [h1, h2]
    · simp [h1, h2]
    · simp [h1, h2]
  | trans h12 _ ih₁ ih₂ =>
    intro hnd p
    have hnd₂ : (_ : List _).map Prod.fst |>.Nodup := ((h12.map Prod.fst).nodup_iff).mp hnd
    exact (ih₁ hnd p).trans (ih₂ hnd₂ p)

theorem assignAnchorsGo_congr {files₁ files₂ : List (List Char × Chapter)}
    (hl : ∀ p, lookupChapter files₁ p = lookupChapter files₂ p) :
    ∀ ps used, assignAnchorsGo files₁ used ps = assignAnchorsGo files₂ used ps := by
  intro ps
  induction ps with
  | nil => intro used; rfl
  | cons p ps ih =>
    intro used
    simp only [assignAnchorsGo, hl p, ih]

theorem combineGo_congr {files₁ files₂ : List (List Char × Chapter)}
    (hl : ∀ p, lookupChapter files₁ p = lookupChapter files₂ p)
    (tbl : List (List Char × AnchorInfo)) :
    ∀ entries, combineGo tbl files₁ entries = combineGo tbl files₂ entries := by
  intro entries
  induction entries with
  | nil => rfl
  | cons e rest ih =>
    obtain ⟨l, p⟩ := e
    simp only [combineGo, hl p, ih]

/-- C7: the combined output is a pure function of the navigation tree and the
chapter-file *set*: re-running the combiner on unchanged input — even if the
file system enumerates the (uniquely-keyed) chapter files in a different
order — yields a byte-identical result. -/
theorem combiner_run_deterministic (nav : NavEntry)
    (files₁ files₂ : List (List Char × Chapter)) (hperm : files₁.Perm files₂)
    (hnd : (files₁.map Prod.fst).Nodup) :
    combineChapters nav files₁ = combineChapters nav files₂ := by
  have hl := lookupChapter_perm hperm hnd
  show combineGo (assignAnchors files₁ ((flattenNav nav).map (·.2))) files₁ (flattenNav nav) =
    combineGo (assignAnchors files₂ ((flattenNav nav).map (·.2))) files₂ (flattenNav nav)
  rw [show assignAnchors files₁ ((flattenNav nav).map (·.2)) =
      assignAnchors files₂ ((flattenNav nav).map (·.2)) from
    assignAnchorsGo_congr hl _ []]
  exact combineGo_congr hl _ (flattenNav nav)

/-! ### Link rewriting -/

theorem takeWhile_append_all {p : Char → Bool} {xs : List Char}
    (h : ∀ x ∈ xs, p x = true) (ys : List Char) :
    (xs ++ ys).takeWhile p = xs ++ ys.takeWhile p := by
  induction xs with
  | nil => simp
  | cons c cs ih =>
    have hc : p c = true := h c (by simp)
    simp [List.takeWhile_cons, hc, ih (fun x hx => h x (by simp [hx]))]

theorem dropWhile_append_all {p : Char → Bool} {xs : List Char}
    (h : ∀ x ∈ xs, p x = true) (ys : List Char) :
    (xs ++ ys).dropWhile p = ys.dropWhile p := by
  induction xs with
  | nil => simp
  | cons c cs ih =>
    have hc : p c = true := h c (by simp)
    simp [List.dropWhile_cons, hc, ih (fun x hx => h x (by simp [hx]))]

theorem parseLink_single {lab tgt : List Char} (hlab : ']' ∉ lab) (htgt : ')' ∉ tgt) :
    parseLink (lab ++ (']' :: '(' :: (tgt ++ [')']))) = some (lab, tgt, []) := by
  have hlab' : ∀ x ∈ lab, (x != ']') = true :=
    fun x hx => bne_iff_ne.mpr (fun hcon => hlab (hcon ▸ hx))
  have htgt' : ∀ x ∈ tgt, (x != ')') = true :=
    fun x hx => bne_iff_ne.mpr (fun hcon => htgt (hcon ▸ hx))
  have hdrop1 : (lab ++ (']' :: '(' :: (tgt ++ [')']))).dropWhile (fun c => c != ']') =
      ']' :: '(' :: (tgt ++ [')']) := by
    rw [dropWhile_append_all hlab']
    simp [List.dropWhile_cons]
  have htake1 : (lab ++ (']' :: '(' :: (tgt ++ [')']))).takeWhile (fun c => c != ']') =
      lab := by
    rw [takeWhile_append_all hlab']
    simp [List.takeWhile_cons]
  have hdrop2 : (tgt ++ [')']).dropWhile (fun c => c != ')') = [')'] := by
    rw [dropWhile_append_all htgt']
    simp [List.dropWhile_cons]
  have htake2 : (tgt ++ [')']).takeWhile (fun c => c != ')') = tgt := by
    rw [takeWhile_append_all htgt']
    simp [List.takeWhile_cons]
  unfold parseLink
  rw [hdrop1]
  simp only [hdrop2, htake1, htake2]

theorem rewriteChars_single_link (tbl : List (List Char × AnchorInfo))
    (self lab tgt : List Char) (hlab : ']' ∉ lab) (htgt : ')' ∉ tgt) :
    rewriteChars tbl self ('[' :: (lab ++ (']' :: '(' :: (tgt ++ [')'])))) =
      '[' :: (lab ++ (']' :: '(' :: (rewriteTarget tbl self tgt ++ [')']))) := by
  show rewriteGo tbl self ('[' :: (lab ++ (']' :: '(' :: (tgt ++ [')'])))).length
      ('[' :: (lab ++ (']' :: '(' :: (tgt ++ [')'])))) = _
  simp only [List.length_cons, List.length_append]
  rw [rewriteGo]
  rw [if_pos rfl, parseLink_single hlab htgt]
  simp [rewriteGo]

/-- C1: a markdown inline link `[lab](tgt)` in a chapter is emitted with its
target passed through `rewriteTarget` and everything else byte-identical;
`rewriteTarget` leaves same-page anchors and external URLs byte-identical,
and otherwise rewrites to an in-document `#anchor` if and only if the
resolved target is a known chapter path in the AnchorTable (an unknown path
stays byte-identical). -/
theorem link_rewrite_iff (tbl : List (List Char × AnchorInfo)) (self lab tgt : List Char)
    (hlab : ']' ∉ lab) (htgt : ')' ∉ tgt) :
    rewriteChars tbl self ('[' :: (lab ++ (']' :: '(' :: (tgt ++ [')'])))) =
      '[' :: (lab ++ (']' :: '(' :: (rewriteTarget tbl self tgt ++ [')']))) ∧
    (tgt.head? = some '#' → rewriteTarget tbl self tgt = tgt) ∧
    (containsSub "://".toList tgt = true → rewriteTarget tbl self tgt = tgt) ∧
    (tgt.head? ≠ some '#' → containsSub "://".toList tgt = false →
      ((lookupAnchor tbl (resolveRel self (splitFragment tgt).1)).isSome = true ↔
        ∃ a, rewriteTarget tbl self tgt = '#' :: a) ∧
      (lookupAnchor tbl (resolveRel self (splitFragment tgt).1) = none →
        rewriteTarget tbl self tgt = tgt)) := by
  refine ⟨rewriteChars_single_link tbl self lab tgt hlab htgt, ?_, ?_, ?_⟩
  · intro h
    simp [rewriteTarget, h]
  · intro h
    by_cases hh : tgt.head? = some '#'
    · simp [rewriteTarget, hh]
    · simp only [rewriteTarget, if_neg hh]
      rw [if_pos h]
  · intro h1 h2
    have hne2 : ¬ (containsSub "://".toList tgt = true) := by rw [h2]; simp
    constructor
    · constructor
      · intro hsome
        obtain ⟨info, hinfo⟩ := Option.isSome_iff_exists.mp hsome
        simp only [rewriteTarget, if_neg h1, if_neg hne2, hinfo]
        cases hfrag : (splitFragment tgt).2 with
        | none => exact ⟨info.anchor, rfl⟩
        | some f => exact ⟨info.override.getD info.anchor, rfl⟩
      · rintro ⟨a, ha⟩
        cases hl : lookupAnchor tbl (resolveRel self (splitFragment tgt).1) with
        | some info => simp
        | none =>
          exfalso
          simp only [rewriteTarget, if_neg h1, if_neg hne2, hl] at ha
          rw [ha] at h1
          simp at h1
    · intro hl
      simp only [rewriteTarget, if_neg h1, if_neg hne2, hl]

/-- C1 witness: in the fixture, `[Chapter 1](chapter1.md)` is rewritten with
its target passed through the AnchorTable. -/
theorem link_rewrite_iff_witness :
    rewriteChars fixtureTbl "index.md".toList
      ('[' :: ("Chapter 1".toList ++ (']' :: '(' :: ("chapter1.md".toList ++ [')'])))) =
      '[' :: ("Chapter 1".toList ++ (']' :: '(' ::
        (rewriteTarget fixtureTbl "index.md".toList "chapter1.md".toList ++ [')']))) :=
  (link_rewrite_iff fixtureTbl "index.md".toList "Chapter 1".toList "chapter1.md".toList
    (by decide) (by decide)).1

/-- C6: a link target `path#frag` whose path resolves to a known chapter is
rewritten against that chapter's AnchorTable entry: to the chapter's declared
anchor override when the target document defines one, and otherwise to the
chapter-level anchor. -/
theorem fragment_link_declared_anchor (tbl : List (List Char × AnchorInfo))
    (self path frag : List Char) (info : AnchorInfo)
    (hpath : '#' ∉ path) (hne : path ≠ [])
    (hscheme : containsSub "://".toList (path ++ ('#' :: frag)) = false)
    (hlook : lookupAnchor tbl (resolveRel self path) = some info) :
    rewriteTarget tbl self (path ++ ('#' :: frag)) =
      '#' :: info.override.getD info.anchor := by
  have hp' : ∀ x ∈ path, (x != '#') = true :=
    fun x hx => bne_iff_ne.mpr (fun hcon => hpath (hcon ▸ hx))
  have hsplit : splitFragment (path ++ ('#' :: frag)) = (path, some frag) := by
    unfold splitFragment
    rw [takeWhile_append_all hp', dropWhile_append_all hp']
    simp [List.takeWhile_cons, List.dropWhile_cons]
  have hhead : ¬ ((path ++ ('#' :: frag)).head? = some '#') := by
    cases path with
    | nil => exact absurd rfl hne
    | cons c cs =>
      simp only [List.cons_append, List.head?_cons, Option.some.injEq]
      intro hcon
      exact hpath (by rw [hcon]; simp)
  have hs : ¬ (containsSub "://".toList (path ++ ('#' :: frag)) = true) := by
    rw [hscheme]; simp
  simp only [rewriteTarget, if_neg hhead, if_neg hs, hsplit, hlook]

/-- C6 witness: the fixture link `chapter2.md#quotes` rewrites to `#quotes`,
chapter2's declared anchor. -/
theorem fragment_link_declared_anchor_witness :
    rewriteTarget fixtureTbl "chapter1.md".toList
      ("chapter2.md".toList ++ ('#' :: "quotes".toList)) = '#' :: "quotes".toList := by
  have h := fragment_link_declared_anchor fixtureTbl "chapter1.md".toList
    "chapter2.md".toList "quotes".toList ⟨"quotes".toList, some "quotes".toList⟩
    (by decide) (by decide) (by decide) (by decide)
  simpa using h

/-- C2 witness: the fixture combines to its chapters' renderings concatenated
in navigation order. -/
theorem combined_order_witness :
    combineChapters fixtureNav fixtureFiles = .ok (((flattenNav fixtureNav).map (fun lp =>
      renderChapter (assignAnchors fixtureFiles ((flattenNav fixtureNav).map (·.2))) lp.2
        ((lookupChapter fixtureFiles lp.2).getD emptyChapter))).flatten) :=
  (combined_order_is_nav_flattening fixtureNav fixtureFiles (by decide)).1

/-- C4 witness: removing `chapter2.md` makes the whole fixture run fail with
`MissingChapterFile` and no combined output. -/
theorem combine_missing_chapter_witness :
    (∃ p, lookupChapter fixtureFilesMissing p = none ∧
      combineChapters fixtureNav fixtureFilesMissing = .error (.missingChapterFile p)) ∧
    ∀ out, combineChapters fixtureNav fixtureFilesMissing ≠ .ok out :=
  combine_missing_chapter_aborts fixtureNav fixtureFilesMissing (by decide)

/-- C7 witness: enumerating the fixture's chapter files in reverse order
leaves the combined output byte-identical. -/
theorem combiner_run_deterministic_witness :
    combineChapters fixtureNav fixtureFiles =
      combineChapters fixtureNav fixtureFiles.reverse :=
  combiner_run_deterministic fixtureNav fixtureFiles fixtureFiles.reverse
    (fixtureFiles.reverse_perm).symm (by decide)

/-- C3 witness: a base slug already in use receives the numeric suffix
starting at `-2`. -/
theorem anchor_table_unique_witness :
    ∃ k, 2 ≤ k ∧ freshAnchor ["intro-md".toList] "intro-md".toList =
      "intro-md".toList ++ '-' :: natToChars k :=
  (anchor_table_unique [] []).2.1 ["intro-md".toList] "intro-md".toList (by decide)

theorem isPrefixOf_append_self (pat rest : List Char) :
    pat.isPrefixOf (pat ++ rest) = true := by
  induction pat with
  | nil => simp [List.isPrefixOf]
  | cons c cs ih => simp [List.isPrefixOf, ih]

theorem countOcc_append_no_slash (p' xs : List Char) (h : '/' ∉ xs) (ys : List Char) :
    countOcc ('/' :: p') (xs ++ ys) = countOcc ('/' :: p') ys := by
  induction xs with
  | nil => simp
  | cons c cs ih =>
    have hc : c ≠ '/' := fun hcon => h (by simp [hcon])
    have hpre : ('/' :: p').isPrefixOf (c :: (cs ++ ys)) = false := by
      simp only [List.isPrefixOf, Bool.and_eq_false_imp]
      intro hcon
      exact absurd (beq_iff_eq.mp (BEq.symm hcon)) hc
    simp only [List.cons_append, countOcc, List.append_eq, hpre, Bool.false_eq_true,
      if_false, Nat.zero_add]
    exact ih (fun hcon => h (by simp [hcon]))

theorem countOcc_short (pat : List Char) : ∀ l, l.length < pat.length →
    countOcc pat l = 0 := by
  intro l
  induction l with
  | nil => intro _; rfl
  | cons c cs ih =>
    intro hlen
    have hpre : pat.isPrefixOf (c :: cs) = false := by
      cases hp : pat.isPrefixOf (c :: cs)
      · rfl
      · exfalso
        have := List.IsPrefix.length_le (List.isPrefixOf_iff_prefix.mp hp)
        omega
    simp only [countOcc, hpre, if_neg]
    simp only [List.length_cons] at hlen
    have := ih (by omega)
    simpa using this

theorem countOcc_tag_header (rest : List Char) :
    countOcc chapterDatesTag (chapterDatesTag ++ ('\n' :: rest)) =
      1 + countOcc chapterDatesTag rest := by
  have htag : chapterDatesTag =
      ['/', '/', '/', ' ', 'c', 'h', 'a', 'p', 't', 'e', 'r', '-', 'd', 'a', 't', 'e', 's'] := by
    decide
  rw [htag]
  simp +decide [countOcc, List.isPrefixOf, List.cons_append, List.nil_append]

/-- C5: a chapter declaring both dates yields exactly one `chapter-dates`
block, containing both date strings, adjacent to the chapter's rewritten
content; a chapter declaring neither date yields no block at all. -/
theorem dates_block_presence (tbl : List (List Char × AnchorInfo)) (p raw : List Char)
    (ov : Option (List Char)) (c pub : List Char)
    (hc : '/' ∉ c) (hpub : '/' ∉ pub) :
    countOcc chapterDatesTag (datesBlock ⟨raw, some c, some pub, ov⟩) = 1 ∧
    c <:+: datesBlock ⟨raw, some c, some pub, ov⟩ ∧
    pub <:+: datesBlock ⟨raw, some c, some pub, ov⟩ ∧
    renderChapter tbl p ⟨raw, some c, some pub, ov⟩ =
      rewriteChars tbl p raw ++ datesBlock ⟨raw, some c, some pub, ov⟩ ∧
    datesBlock ⟨raw, none, none, ov⟩ = [] ∧
    renderChapter tbl p ⟨raw, none, none, ov⟩ = rewriteChars tbl p raw := by
  have hblock : datesBlock ⟨raw, some c, some pub, ov⟩ =
      chapterDatesTag ++ ('\n' :: ("Создано: ".toList ++ (c ++ ('\n' ::
        ("Опубликовано: ".toList ++ (pub ++ ('\n' :: "///\n".toList))))))) := by
    show "/// chapter-dates\n".toList ++
        dateLine "Создано: ".toList (some c) ++
        dateLine "Опубликовано: ".toList (some pub) ++ "///\n".toList = _
    have hhdr : "/// chapter-dates\n".toList = chapterDatesTag ++ ['\n'] := by decide
    rw [hhdr]
    simp [dateLine, List.append_assoc]
  have htagcons : chapterDatesTag = '/' :: "// chapter-dates".toList := by decide
  refine ⟨?_, ?_, ?_, rfl, rfl, by simp [renderChapter, datesBlock]⟩
  · rw [hblock, countOcc_tag_header, htagcons]
    rw [countOcc_append_no_slash _ "Создано: ".toList (by decide)]
    rw [countOcc_append_no_slash _ c hc]
    rw [show ('\n' :: ("Опубликовано: ".toList ++ (pub ++ ('\n' :: "///\n".toList)))) =
      ['\n'] ++ ("Опубликовано: ".toList ++ (pub ++ ('\n' :: "///\n".toList))) from rfl]
    rw [countOcc_append_no_slash _ ['\n'] (by decide)]
    rw [countOcc_append_no_slash _ "Опубликовано: ".toList (by decide)]
    rw [countOcc_append_no_slash _ pub hpub]
    rw [show ('\n' :: "///\n".toList) = ['\n'] ++ "///\n".toList from rfl]
    rw [countOcc_append_no_slash _ ['\n'] (by decide)]
    decide
  · rw [hblock]
    refine ⟨chapterDatesTag ++ ('\n' :: "Создано: ".toList),
      '\n' :: ("Опубликовано: ".toList ++ (pub ++ ('\n' :: "///\n".toList))), ?_⟩
    simp [List.append_assoc]
  · rw [hblock]
    refine ⟨chapterDatesTag ++ ('\n' :: ("Создано: ".toList ++ (c ++
      ('\n' :: "Опубликовано: ".toList)))), '\n' :: "///\n".toList, ?_⟩
    simp [List.append_assoc]

/-- C5 witness: the fixture's chapter2 dates produce exactly one block. -/
theorem dates_block_presence_witness :
    countOcc chapterDatesTag (datesBlock
      ⟨[], some "2024-01-15".toList, some "2024-01-20".toList, some "quotes".toList⟩) = 1 :=
  (dates_block_presence [] [] [] (some "quotes".toList) "2024-01-15".toList
    "2024-01-20".toList (by decide) (by decide)).1

theorem lowerEq_refl (a : Char) : lowerEq a a = true := by
  simp [lowerEq]

theorem lowerEq_comm {a b : Char} (h : lowerEq a b = true) : lowerEq b a = true := by
  simp only [lowerEq, beq_iff_eq] at *
  exact h.symm

theorem lowerEq_trans3 {a b x : Char} (h1 : lowerEq a x = true) (h2 : lowerEq b x = true) :
    lowerEq a b = true := by
  simp only [lowerEq, beq_iff_eq] at *
  exact h1.trans h2.symm

theorem ciPrefix_length {p l : List Char} (h : ciPrefix p l = true) :
    p.length ≤ l.length := by
  induction p generalizing l with
  | nil => simp
  | cons a as ih =>
    cases l with
    | nil => simp [ciPrefix] at h
    | cons b bs =>
      simp only [ciPrefix, Bool.and_eq_true] at h
      simp only [List.length_cons]
      exact Nat.succ_le_succ (ih h.2)

theorem ciPrefix_self_append (x y : List Char) : ciPrefix x (x ++ y) = true := by
  induction x with
  | nil => rfl
  | cons a as ih => simp [ciPrefix, lowerEq_refl, ih]

theorem nobrGo_nil (fuel : Nat) (pre : List Char) : nobrGo fuel pre [] = [] := by
  cases fuel <;> rfl

/-! ### Facts about the pattern's alternatives and literals (finite checks) -/

theorem emoticons_two_le : ∀ e ∈ emoticons, 2 ≤ e.length := by decide

theorem emoticons_head_start : ∀ e ∈ emoticons,
    e.head?.map Char.toLower = some ':' ∨ e.head?.map Char.toLower = some ';' := by decide

theorem emoticons_chars_ne_lt : ∀ e ∈ emoticons, ∀ a ∈ e, a.toLower ≠ '<' := by decide

theorem emoticons_tail_not_start : ∀ e ∈ emoticons, ∀ a ∈ e.tail,
    a.toLower ≠ ':' ∧ a.toLower ≠ ';' := by decide

theorem emoticons_ci_prefree : ∀ e₁ ∈ emoticons, ∀ e₂ ∈ emoticons,
    ciPrefix e₁ e₂ = true → e₁ = e₂ := by decide

theorem emoticons_rev_heads : ∀ e ∈ emoticons,
    (e.reverse.head?.map Char.toLower ∈
      [some '(', some ')', some 'd', some 'p']) ∧
    (e.reverse.tail.head?.map Char.toLower ∈ [some '-', some ':', some ';']) := by decide

theorem spanOpen_not_start : ∀ x ∈ spanOpen, x.toLower ≠ ':' ∧ x.toLower ≠ ';' := by decide

theorem spanClose_not_start : ∀ x ∈ spanClose, x.toLower ≠ ':' ∧ x.toLower ≠ ';' := by decide

theorem spanOpen_head_lt : spanOpen = '<' :: spanOpen.tail := by decide

theorem revO_drop_block : ∀ k < 22, ∀ a ∈ ['(', ')', 'd', 'p'], ∀ b ∈ ['-', ':', ';'],
    dropBlockCheck k a b = true := by decide

theorem spanOpen_rev_length : spanOpen.reverse.length = 22 := by decide

/-! ### tryMatch characterization -/

theorem tryMatch_none_of_blocked {pre : List Char} (rest : List Char)
    (hb : ciPrefix spanOpen.reverse pre = true) : tryMatch pre rest = none := by
  simp [tryMatch, hb]

theorem tryMatch_none_of_nofind {pre rest : List Char}
    (hf : emoticons.find? (fun e => ciPrefix e rest) = none) : tryMatch pre rest = none := by
  unfold tryMatch
  split
  · rfl
  · rw [hf]

theorem tryMatch_none_inv {pre rest : List Char} (h : tryMatch pre rest = none) :
    ciPrefix spanOpen.reverse pre = true ∨
    emoticons.find? (fun e => ciPrefix e rest) = none ∨
    (∃ e, emoticons.find? (fun e => ciPrefix e rest) = some e ∧
      ciPrefix spanClose (rest.drop e.length) = true) := by
  unfold tryMatch at h
  split at h
  · left
    assumption
  · rename_i hb
    split at h
    · right
      left
      assumption
    · rename_i e hf
      split at h
      · right
        right
        exact ⟨e, hf, by assumption⟩
      · cases h

theorem tryMatch_some_inv {pre rest m rest' : List Char}
    (h : tryMatch pre rest = some (m, rest')) :
    ciPrefix spanOpen.reverse pre = false ∧
    ∃ e, emoticons.find? (fun e => ciPrefix e rest) = some e ∧
      m = rest.take e.length ∧ rest' = rest.drop e.length ∧
      ciPrefix spanClose (rest.drop e.length) = false := by
  unfold tryMatch at h
  split at h
  · cases h
  · rename_i hb
    constructor
    · exact Bool.not_eq_true _ ▸ Bool.of_not_eq_true hb
    · split at h
      · cases h
      · rename_i e hf
        split at h
        · cases h
        · rename_i hla
          cases h
          exact ⟨e, hf, rfl, rfl, Bool.of_not_eq_true hla⟩

/-- At a position whose first character cannot open any alternative, no
match occurs. -/
theorem tryMatch_none_not_start {pre : List Char} {x : Char} (rs : List Char)
    (hx : x.toLower ≠ ':' ∧ x.toLower ≠ ';') : tryMatch pre (x :: rs) = none := by
  apply tryMatch_none_of_nofind
  rw [List.find?_eq_none]
  intro e he
  have hh := emoticons_head_start e he
  cases e with
  | nil => simp at hh
  | cons a as =>
    simp only [List.head?_cons, Option.map_some] at hh
    simp only [ciPrefix, Bool.and_eq_false_imp, Bool.not_eq_true]
    intro hle
    exfalso
    simp only [lowerEq, beq_iff_eq] at hle
    rcases hh with hh | hh
    · exact hx.1 (by rw [← hle]; injection hh)
    · exact hx.2 (by rw [← hle]; injection hh)

/-! ### Scan lemmas -/

/-- A run of characters that cannot open any alternative is copied through
unchanged, advancing the scanner's state past it. -/
theorem nobrGo_copy (xs : List Char)
    (hxs : ∀ x ∈ xs, x.toLower ≠ ':' ∧ x.toLower ≠ ';') :
    ∀ fuel pre ys, xs.length + ys.length ≤ fuel →
      nobrGo fuel pre (xs ++ ys) =
        xs ++ nobrGo (fuel - xs.length) (xs.reverse ++ pre) ys := by
  induction xs with
  | nil => intro fuel pre ys _; simp
  | cons x xs' ih =>
    intro fuel pre ys hb
    cases fuel with
    | zero => simp at hb
    | succ f =>
      have hx := hxs x (by simp)
      have hstep : nobrGo (f + 1) pre (x :: (xs' ++ ys)) =
          x :: nobrGo f (x :: pre) (xs' ++ ys) := by
        simp only [nobrGo, tryMatch_none_not_start _ hx]
      simp only [List.cons_append, hstep]
      rw [ih (fun y hy => hxs y (by simp [hy])) f (x :: pre) ys (by
        simp only [List.length_cons, List.length_append] at hb ⊢
        omega)]
      simp only [List.length_cons, List.reverse_cons, List.append_assoc,
        List.singleton_append]
      have harith : f + 1 - (xs'.length + 1) = f - xs'.length := by omega
      rw [harith]

/-- A text that case-insensitively starts with a run of characters that
cannot open any alternative keeps that prefix through the scan. -/
theorem nobrGo_preserves_prefix (p : List Char)
    (hp : ∀ x ∈ p, x.toLower ≠ ':' ∧ x.toLower ≠ ';') :
    ∀ rest fuel pre, ciPrefix p rest = true →
      ciPrefix p (nobrGo fuel pre rest) = true := by
  induction p with
  | nil => intro rest fuel pre _; rfl
  | cons a as ih =>
    intro rest fuel pre hpre
    cases rest with
    | nil => simp [ciPrefix] at hpre
    | cons c rs =>
      simp only [ciPrefix, Bool.and_eq_true] at hpre
      have hc : c.toLower ≠ ':' ∧ c.toLower ≠ ';' := by
        have ha := hp a (by simp)
        have : a.toLower = c.toLower := by
          have := hpre.1
          simpa [lowerEq] using this
        rw [← this]
        exact ha
      cases fuel with
      | zero =>
        simp only [nobrGo, ciPrefix, Bool.and_eq_true]
        exact ⟨hpre.1, hpre.2⟩
      | succ f =>
        have hstep : nobrGo (f + 1) pre (c :: rs) =
            c :: nobrGo f (c :: pre) rs := by
          simp only [nobrGo, tryMatch_none_not_start _ hc]
        rw [hstep]
        simp only [ciPrefix, Bool.and_eq_true]
        exact ⟨hpre.1, ih (fun y hy => hp y (by simp [hy])) rs f (c :: pre) hpre.2⟩

/-- A case-insensitive prefix of the scanner's output that contains no `<`
was already a prefix of the input, and the output decomposes accordingly. -/
theorem nobrGo_ciPrefix_inv (e : List Char) (he : ∀ a ∈ e, a.toLower ≠ '<') :
    ∀ rest fuel pre, rest.length ≤ fuel →
      ciPrefix e (nobrGo fuel pre rest) = true →
      ciPrefix e rest = true ∧
      nobrGo fuel pre rest = rest.take e.length ++
        nobrGo (fuel - e.length) ((rest.take e.length).reverse ++ pre)
          (rest.drop e.length) := by
  induction e with
  | nil =>
    intro rest fuel pre _ _
    refine ⟨rfl, ?_⟩
    simp
  | cons a as ih =>
    intro rest fuel pre hb hpre
    cases rest with
    | nil =>
      rw [nobrGo_nil] at hpre
      simp [ciPrefix] at hpre
    | cons c rs =>
      cases fuel with
      | zero => simp at hb
      | succ f =>
        cases htm : tryMatch pre (c :: rs) with
        | some mr =>
          exfalso
          obtain ⟨m, rest'⟩ := mr
          have hout : nobrGo (f + 1) pre (c :: rs) =
              spanOpen ++ m ++ spanClose ++ nobrGo f (m.reverse ++ pre) rest' := by
            simp only [nobrGo, htm]
          rw [hout, spanOpen_head_lt] at hpre
          simp only [List.cons_append, ciPrefix, Bool.and_eq_true] at hpre
          have := he a (by simp)
          simp only [lowerEq, beq_iff_eq] at hpre
          exact this (by simpa using hpre.1)
        | none =>
          have hout : nobrGo (f + 1) pre (c :: rs) =
              c :: nobrGo f (c :: pre) rs := by
            simp only [nobrGo, htm]
          rw [hout] at hpre
          simp only [ciPrefix, Bool.and_eq_true] at hpre
          obtain ⟨hrs, hdec⟩ := ih (fun y hy => he y (by simp [hy])) rs f (c :: pre)
            (by simp only [List.length_cons] at hb; omega) hpre.2
          constructor
          · simp only [ciPrefix, Bool.and_eq_true]
            exact ⟨hpre.1, hrs⟩
          · rw [hout]
            simp only [List.length_cons, List.take_succ_cons, List.drop_succ_cons,
              List.reverse_cons, List.cons_append]
            rw [hdec]
            have harith : f + 1 - (as.length + 1) = f - as.length := by omega
            rw [harith]
            simp [List.append_assoc]

/-! ### Matched text versus its alternative -/

theorem ciPrefix_take {p l : List Char} (h : ciPrefix p l = true) :
    ciPrefix p (l.take p.length) = true := by
  induction p generalizing l with
  | nil => rfl
  | cons a as ih =>
    cases l with
    | nil => simp [ciPrefix] at h
    | cons b bs =>
      simp only [ciPrefix, Bool.and_eq_true] at h
      simp only [List.length_cons, List.take_succ_cons, ciPrefix, Bool.and_eq_true]
      exact ⟨h.1, ih h.2⟩

theorem ciPrefix_forall₂ {p l : List Char} (hlen : p.length = l.length)
    (h : ciPrefix p l = true) :
    List.Forall₂ (fun a b => lowerEq a b = true) p l := by
  induction p generalizing l with
  | nil =>
    cases l with
    | nil => exact List.Forall₂.nil
    | cons b bs => simp at hlen
  | cons a as ih =>
    cases l with
    | nil => simp at hlen
    | cons b bs =>
      simp only [ciPrefix, Bool.and_eq_true] at h
      simp only [List.length_cons, Nat.add_right_cancel_iff] at hlen
      exact List.Forall₂.cons h.1 (ih hlen h.2)

theorem forall₂_not_start {p l : List Char}
    (hf : List.Forall₂ (fun a b => lowerEq a b = true) p l)
    (hp : ∀ y ∈ p, y.toLower ≠ ':' ∧ y.toLower ≠ ';') :
    ∀ x ∈ l, x.toLower ≠ ':' ∧ x.toLower ≠ ';' := by
  induction hf with
  | nil => intro x hx; simp at hx
  | @cons a b p' l' h1 h2 ih =>
    intro x hx
    rcases List.mem_cons.mp hx with rfl | hx
    · have := hp a (by simp)
      simp only [lowerEq, beq_iff_eq] at h1
      rw [← h1]
      exact this
    · exact ih (fun y hy => hp y (by simp [hy])) x hx

/-- The shape of a matched text: its reverse starts with two characters whose
lowered forms are a closer (`( ) d p`) then a middle (`- : ;`). -/
theorem matched_rev_shape {e m : List Char} (he : e ∈ emoticons)
    (hlen : e.length = m.length)
    (hci : ciPrefix e m = true) :
    ∃ x0 x1 xr, m.reverse = x0 :: x1 :: xr ∧
      x0.toLower ∈ ['(', ')', 'd', 'p'] ∧ x1.toLower ∈ ['-', ':', ';'] := by
  have hf : List.Forall₂ (fun a b => lowerEq a b = true) e.reverse m.reverse :=
    List.forall₂_reverse_iff.mpr (ciPrefix_forall₂ hlen hci)
  have hheads := emoticons_rev_heads e he
  cases her : e.reverse with
  | nil =>
    rw [her] at hheads
    simp at hheads
  | cons y0 ytl =>
    cases ytl with
    | nil =>
      exfalso
      have h2 := emoticons_two_le e he
      have : e.reverse.length = 1 := by rw [her]; rfl
      simp only [List.length_reverse] at this
      omega
    | cons y1 yr =>
      rw [her] at hheads
      have hlenr : 2 ≤ m.reverse.length := by
        have h1 : e.reverse.length = m.reverse.length := by
          simp [List.length_reverse, hlen]
        rw [her] at h1
        simp only [List.length_cons] at h1
        omega
      cases hmr : m.reverse with
      | nil => rw [hmr] at hlenr; simp at hlenr
      | cons x0 tl =>
        cases tl with
        | nil => rw [hmr] at hlenr; simp at hlenr
        | cons x1 xr =>
          rw [her, hmr] at hf
          rcases hf with _ | ⟨h0, hf'⟩
          rcases hf' with _ | ⟨h1, _⟩
          refine ⟨x0, x1, xr, rfl, ?_, ?_⟩
          · have hh := hheads.1
            simp only [List.head?_cons, Option.map_some] at hh
            simp only [lowerEq, beq_iff_eq] at h0
            rw [← h0]
            simpa using hh
          · have hh := hheads.2
            simp only [List.tail_cons, List.head?_cons, Option.map_some] at hh
            simp only [lowerEq, beq_iff_eq] at h1
            rw [← h1]
            simpa using hh

theorem Rel.refl_self (pre : List Char) : Rel pre pre :=
  fun _ h => h

theorem Rel.cons {pre pre₂ : List Char} (c : Char) (h : Rel pre pre₂) :
    Rel (c :: pre) (c :: pre₂) := by
  intro k hk
  cases hdrop : spanOpen.reverse.drop k with
  | nil => rfl
  | cons d ds =>
    have hds : ds = spanOpen.reverse.drop (k + 1) := by
      have h2 := List.tail_drop spanOpen.reverse k
      rw [hdrop] at h2
      simp only [List.tail_cons] at h2
      exact h2
    rw [hdrop] at hk
    simp only [ciPrefix, Bool.and_eq_true] at hk
    have h2 := h (k + 1) (by rw [← hds]; exact hk.2)
    simp only [ciPrefix, Bool.and_eq_true]
    exact ⟨hk.1, by rw [hds]; exact h2⟩

/-- After a wrapped match, the consumed first-pass text ends in a reversed
emoticon, which no suffix of the lookbehind literal can match — so the
relation holds against any second-pass state. -/
theorem Rel.of_wrapped {x0 x1 : Char} (r pre₂ : List Char)
    (h0 : x0.toLower ∈ ['(', ')', 'd', 'p']) (h1 : x1.toLower ∈ ['-', ':', ';']) :
    Rel (x0 :: x1 :: r) pre₂ := by
  intro k hk
  by_cases hk22 : k < 22
  · exfalso
    have hblock := revO_drop_block k hk22 x0.toLower h0 x1.toLower h1
    unfold dropBlockCheck at hblock
    cases hdrop : spanOpen.reverse.drop k with
    | nil =>
      have : spanOpen.reverse.length ≤ k := List.drop_eq_nil_iff.mp hdrop
      rw [spanOpen_rev_length] at this
      omega
    | cons c0 tl =>
      rw [hdrop] at hk hblock
      cases tl with
      | nil =>
        simp only [ciPrefix, Bool.and_eq_true] at hk
        simp only [Bool.not_eq_eq_eq_not, Bool.not_true, beq_eq_false_iff_ne] at hblock
        exact hblock (by simpa [lowerEq, beq_iff_eq] using hk.1)
      | cons c1 tl2 =>
        simp only [ciPrefix, Bool.and_eq_true] at hk
        simp only [Bool.not_eq_eq_eq_not, Bool.not_true, Bool.and_eq_false_iff,
          beq_eq_false_iff_ne] at hblock
        rcases hblock with hb | hb
        · exact hb (by simpa [lowerEq, beq_iff_eq] using hk.1)
        · exact hb (by simpa [lowerEq, beq_iff_eq] using hk.2.1)
  · rw [List.drop_eq_nil_iff.mpr (by rw [spanOpen_rev_length]; omega)] at hk ⊢
    rfl

theorem ciPrefix_of_both {a b l : List Char} (ha : ciPrefix a l = true)
    (hb : ciPrefix b l = true) (hlen : a.length ≤ b.length) :
    ciPrefix a b = true := by
  induction a generalizing b l with
  | nil => rfl
  | cons x xs ih =>
    cases l with
    | nil => simp [ciPrefix] at ha
    | cons c cs =>
      cases b with
      | nil => simp at hlen
      | cons y ys =>
        simp only [ciPrefix, Bool.and_eq_true] at ha hb ⊢
        refine ⟨lowerEq_trans3 ha.1 hb.1, ?_⟩
        exact ih ha.2 hb.2 (by simp only [List.length_cons] at hlen; omega)

/-- At a fixed position, at most one alternative matches. -/
theorem emoticons_unique_at {e₁ e₂ l : List Char} (h₁ : e₁ ∈ emoticons)
    (h₂ : e₂ ∈ emoticons) (p1 : ciPrefix e₁ l = true) (p2 : ciPrefix e₂ l = true) :
    e₁ = e₂ := by
  rcases Nat.le_total e₁.length e₂.length with hle | hle
  · exact emoticons_ci_prefree e₁ h₁ e₂ h₂ (ciPrefix_of_both p1 p2 hle)
  · exact (emoticons_ci_prefree e₂ h₂ e₁ h₁ (ciPrefix_of_both p2 p1 hle)).symm

/-- The second pass finds nothing to rewrite: every position of the first
pass's output is either inside an emitted wrapper (blocked by the lookbehind
or lookahead, or not an alternative at all) or a copied character whose
original reason for not matching still applies. -/
theorem nobr_second_pass_fixed : ∀ fuel₁ pre pre₂ rest fuel₂,
    rest.length ≤ fuel₁ →
    (nobrGo fuel₁ pre rest).length ≤ fuel₂ →
    Rel pre pre₂ →
    nobrGo fuel₂ pre₂ (nobrGo fuel₁ pre rest) = nobrGo fuel₁ pre rest := by
  intro fuel₁
  induction fuel₁ with
  | zero =>
    intro pre pre₂ rest fuel₂ hb₁ _ _
    have : rest = [] := List.length_eq_zero.mp (Nat.le_zero.mp hb₁)
    subst this
    simp [nobrGo_nil]
  | succ f ih =>
    intro pre pre₂ rest fuel₂ hb₁ hb₂ hrel
    cases rest with
    | nil => simp [nobrGo_nil]
    | cons c rs =>
      cases htm : tryMatch pre (c :: rs) with
      | none =>
        have hout : nobrGo (f + 1) pre (c :: rs) = c :: nobrGo f (c :: pre) rs := by
          simp only [nobrGo, htm]
        set out' := nobrGo f (c :: pre) rs with hout'
        have hlen₂ : out'.length + 1 ≤ fuel₂ := by
          rw [hout] at hb₂
          simpa using hb₂
        cases fuel₂ with
        | zero => omega
        | succ g =>
          have htm₂ : tryMatch pre₂ (c :: out') = none := by
            rcases tryMatch_none_inv htm with hbl | hnf | ⟨e, hfind, hla⟩
            · exact tryMatch_none_of_blocked _ (by
                have := hrel 0 (by simpa using hbl)
                simpa using this)
            · apply tryMatch_none_of_nofind
              rw [List.find?_eq_none] at hnf ⊢
              intro e he
              simp only [Bool.not_eq_true] at hnf ⊢
              cases hce : ciPrefix e (c :: out') with
              | false => rfl
              | true =>
                exfalso
                have hinv := nobrGo_ciPrefix_inv e (emoticons_chars_ne_lt e he)
                  (c :: rs) (f + 1) pre hb₁ (by rw [hout]; exact hce)
                have := hnf e he
                rw [hinv.1] at this
                cases this
            · unfold tryMatch
              split
              · rfl
              · rename_i hbl₂
                cases hfind₂ : emoticons.find? (fun e => ciPrefix e (c :: out')) with
                | none => rfl
                | some e₂ =>
                  have he₂ := List.mem_of_find?_eq_some hfind₂
                  have hce₂ : ciPrefix e₂ (c :: out') = true := by
                    have := List.find?_some hfind₂
                    simpa using this
                  have hinv := nobrGo_ciPrefix_inv e₂ (emoticons_chars_ne_lt e₂ he₂)
                    (c :: rs) (f + 1) pre hb₁ (by rw [hout]; exact hce₂)
                  have hee : e₂ = e := by
                    have hce₁ : ciPrefix e (c :: rs) = true := by
                      have := List.find?_some hfind
                      simpa using this
                    exact emoticons_unique_at he₂ (List.mem_of_find?_eq_some hfind)
                      hinv.1 hce₁
                  have hdec := hinv.2
                  rw [hout] at hdec
                  have htake : ((c :: rs).take e₂.length).length = e₂.length := by
                    rw [List.length_take]
                    have := ciPrefix_length hinv.1
                    omega
                  have hdrop2 : (c :: out').drop e₂.length =
                      nobrGo (f + 1 - e₂.length)
                        (((c :: rs).take e₂.length).reverse ++ pre)
                        ((c :: rs).drop e₂.length) := by
                    rw [hdec]
                    exact List.drop_left' htake
                  have hla₂ : ciPrefix spanClose ((c :: out').drop e₂.length) = true := by
                    rw [hdrop2, hee]
                    exact nobrGo_preserves_prefix spanClose spanClose_not_start _ _ _ hla
                  simp [hla₂]
          have hstep₂ : nobrGo (g + 1) pre₂ (c :: out') =
              c :: nobrGo g (c :: pre₂) out' := by
            simp only [nobrGo, htm₂]
          rw [hout, hstep₂]
          congr 1
          exact ih (c :: pre) (c :: pre₂) rs g
            (by simp only [List.length_cons] at hb₁; omega)
            (by rw [← hout']; omega) (Rel.cons c hrel)
      | some mr =>
        obtain ⟨m, rest'⟩ := mr
        obtain ⟨hbl, e, hfind, hm, hrest', hla⟩ := tryMatch_some_inv htm
        have he := List.mem_of_find?_eq_some hfind
        have hce : ciPrefix e (c :: rs) = true := by
          have := List.find?_some hfind
          simpa using this
        have helen : e.length ≤ (c :: rs).length := ciPrefix_length hce
        have hmlen : m.length = e.length := by
          rw [hm, List.length_take]
          omega
        have hout : nobrGo (f + 1) pre (c :: rs) =
            spanOpen ++ m ++ spanClose ++ nobrGo f (m.reverse ++ pre) rest' := by
          simp only [nobrGo, htm]
        set out₁ := nobrGo f (m.reverse ++ pre) rest' with hout₁
        -- the matched text is nonempty: split off its first character
        have hm2 : 2 ≤ m.length := by
          rw [hmlen]
          exact emoticons_two_le e he
        obtain ⟨m0, mt, hm0⟩ : ∃ m0 mt, m = m0 :: mt := by
          cases m with
          | nil => simp at hm2
          | cons a b => exact ⟨a, b, rfl⟩
        -- characters of the matched text after the first cannot open a match
        have hmt : ∀ x ∈ mt, x.toLower ≠ ':' ∧ x.toLower ≠ ';' := by
          have hcim : ciPrefix e m = true := by
            rw [hm]
            exact ciPrefix_take hce
          have h2e := emoticons_two_le e he
          obtain ⟨e0, et, he0⟩ : ∃ e0 et, e = e0 :: et := by
            cases e with
            | nil => simp at h2e
            | cons a b => exact ⟨a, b, rfl⟩
          have hf2 := ciPrefix_forall₂ hmlen.symm hcim
          rw [he0, hm0] at hf2
          rcases hf2 with _ | ⟨h1, h2⟩
          refine forall₂_not_start h2 ?_
          have htl := emoticons_tail_not_start e he
          rw [he0] at htl
          simpa using htl
        -- arithmetic facts about the lengths involved
        have hlenO : spanOpen.length = 22 := by decide
        have h7 : spanClose.length = 7 := by decide
        have hb₂' : 22 + (m.length + (7 + out₁.length)) ≤ fuel₂ := by
          rw [hout] at hb₂
          simp only [List.length_append, hlenO, h7] at hb₂
          omega
        -- second pass: copy the opening literal
        have hcopyO := nobrGo_copy spanOpen spanOpen_not_start fuel₂ pre₂
          (m ++ (spanClose ++ out₁)) (by
            simp only [List.length_append, hlenO]
            omega)
        -- at the matched text: blocked by the lookbehind
        have hblocked : tryMatch (spanOpen.reverse ++ pre₂)
            (m ++ (spanClose ++ out₁)) = none :=
          tryMatch_none_of_blocked _ (ciPrefix_self_append _ _)
        rw [hm0] at hblocked
        simp only [List.cons_append] at hblocked
        obtain ⟨g, hg⟩ : ∃ g, fuel₂ - 22 = g + 1 := ⟨fuel₂ - 23, by omega⟩
        have hstepm : nobrGo (fuel₂ - 22) (spanOpen.reverse ++ pre₂)
            (m ++ (spanClose ++ out₁)) =
            m0 :: nobrGo g (m0 :: (spanOpen.reverse ++ pre₂))
              (mt ++ (spanClose ++ out₁)) := by
          rw [hm0, hg]
          simp only [List.cons_append, nobrGo, List.append_eq, hblocked]
        -- copy the rest of the matched text
        have hmtlen : mt.length = m.length - 1 := by
          rw [hm0]
          simp
        have hcopym := nobrGo_copy mt hmt g (m0 :: (spanOpen.reverse ++ pre₂))
          (spanClose ++ out₁) (by
            simp only [List.length_append, h7]
            omega)
        -- copy the closing literal
        have hcopyC := nobrGo_copy spanClose spanClose_not_start (g - mt.length)
          (mt.reverse ++ (m0 :: (spanOpen.reverse ++ pre₂))) out₁ (by
            rw [h7]
            omega)
        -- the remainder is the first pass's continuation: apply the induction
        have hrest'len : rest'.length ≤ f := by
          rw [hrest']
          simp only [List.length_drop, List.length_cons]
          have : 2 ≤ e.length := emoticons_two_le e he
          simp only [List.length_cons] at hb₁
          omega
        have hout₁len : out₁.length ≤ g - mt.length - spanClose.length := by
          rw [h7]
          omega
        have hcim : ciPrefix e m = true := by
          rw [hm]
          exact ciPrefix_take hce
        obtain ⟨x0, x1, xr, hmrev, hx0, hx1⟩ :=
          matched_rev_shape he hmlen.symm hcim
        have hrelm : Rel (m.reverse ++ pre)
            (spanClose.reverse ++ (mt.reverse ++ (m0 :: (spanOpen.reverse ++ pre₂)))) := by
          rw [hmrev]
          exact Rel.of_wrapped _ _ hx0 hx1
        have hih := ih (m.reverse ++ pre)
          (spanClose.reverse ++ (mt.reverse ++ (m0 :: (spanOpen.reverse ++ pre₂))))
          rest' (g - mt.length - spanClose.length) hrest'len
          (by rw [← hout₁]; exact hout₁len) hrelm
        rw [← hout₁] at hih
        -- assemble the walk
        rw [hout]
        have hshape : spanOpen ++ m ++ spanClose ++ out₁ =
            spanOpen ++ (m ++ (spanClose ++ out₁)) := by
          simp [List.append_assoc]
        rw [hshape, hcopyO, hlenO, hstepm, hcopym, hcopyC, hih]
        rw [hm0]
        simp [List.append_assoc]

/-- C10: the emoticon no-break hook is idempotent — a second
`on_page_markdown` pass over already-processed text changes nothing, because
a wrapped emoticon is shielded by the lookbehind/lookahead and the
substitution introduces no new match. -/
theorem nobr_on_page_markdown_idempotent (s : List Char) :
    nobrEmoticons (nobrEmoticons s) = nobrEmoticons s := by
  unfold nobrEmoticons
  exact nobr_second_pass_fixed s.length [] [] s (nobrGo s.length [] s).length
    (le_refl _) (le_refl _) (Rel.refl_self [])

end TextForge

